import Mathlib

/-!
Verification of the forge-backed installer core (`forgejo` backend):
a shallow embedding of `src/backend/forgejo.rs` and `src/forgejo.rs`.

Rust strings are modelled as `List Char` (`Str`), Rust `Option` as `Option`,
and the map of platform lock entries as an association list.  Network and
filesystem effects are passed in as explicit parameters (fetched pages,
outcome flags), so every function below is the pure data transformation the
source performs.
-/

/-- Rust `String` / `&str`, modelled as its character sequence. -/
abbrev Str := List Char

/-- Prefix test on character sequences (Rust `str::starts_with`). -/
def isPre : Str → Str → Bool
  | [], _ => true
  | _ :: _, [] => false
  | p :: ps, c :: cs => p == c && isPre ps cs

/-- Substring test (Rust `str::contains` with a string needle):
`sub` occurs at some position of `s`. -/
def containsSub (s sub : Str) : Bool :=
  match s with
  | [] => isPre sub []
  | _ :: rest => isPre sub s || containsSub rest sub

/-- Rust `str::strip_prefix`: `some` of the remainder when `p` is a prefix. -/
def stripPre : Str → Str → Option Str
  | [], s => some s
  | _ :: _, [] => none
  | p :: ps, c :: cs => if p == c then stripPre ps cs else none

/-- ASCII model of Rust `str::to_lowercase` (per-character lowering). -/
def toLowerStr (s : Str) : Str := s.map Char.toLower

/-- Suffix test on character sequences (Rust `str::ends_with`). -/
def isSuf (suf s : Str) : Bool := isPre suf.reverse s.reverse

/- ------------------------------------------------------------------
Data model (`src/forgejo.rs`): releases, assets, lock entries.
------------------------------------------------------------------ -/

/-- One downloadable asset of a release (`ForgejoAsset`). -/
structure ForgejoAsset where
  name : Str
  browser_download_url : Str
  url : Option Str
deriving DecidableEq

/-- A published release (`ForgejoRelease`). -/
structure ForgejoRelease where
  tag_name : Str
  draft : Bool
  prerelease : Bool
  assets : List ForgejoAsset
deriving DecidableEq

/-- The resolved artifact descriptor built by the backend (`ReleaseAsset`). -/
structure ReleaseAsset where
  name : Str
  url : Str
  url_api : Str
deriving DecidableEq

/-- A platform lock entry as stored in the tool-version lock record:
round-trips the fields `name` / `url` / `url_api`. -/
structure PlatformInfo where
  name : Option Str
  url : Option Str
  url_api : Option Str
deriving DecidableEq

/- ------------------------------------------------------------------
Forge client (`src/forgejo.rs`).
------------------------------------------------------------------ -/

/-- `list_releases_`: page 1 is always fetched; when the "list all
versions" flag is set the `next`-page links are followed and the pages
concatenated in response order; finally draft and prerelease entries are
removed (`releases.retain`).  The transport is modelled by handing the
function the fetched pages. -/
def list_releases_ (listAll : Bool) (page1 : List ForgejoRelease)
    (rest : List (List ForgejoRelease)) : List ForgejoRelease :=
  let releases := if listAll then page1 ++ rest.flatten else page1
  releases.filter (fun r => !r.draft && !r.prerelease)

/-- `get_release_`: fetches the release for one exact tag and returns the
deserialized value as-is — no draft/prerelease filtering is applied. -/
def get_release_ (fetched : ForgejoRelease) : ForgejoRelease := fetched

/-- `next_page` input: `none` when the response has no `link` header,
`some none` when the header value is not valid UTF-8 (`to_str` failed),
`some (some v)` for a readable header value `v`.
Both failure shapes collapse to the empty string in the source
(`unwrap_or_default`). -/
def linkHeaderStr (link_header : Option (Option Str)) : Str :=
  match link_header with
  | some (some v) => v
  | some none => []
  | none => []

/-- The literal text that must follow the captured URL in the `link`
header: `>; rel="next"`. -/
def relNextSuffix : Str := ">; rel=\"next\"".toList

/-- One attempt of the `link`-header regex `<([^>]+)>; rel="next"` at the
current position: a `<`, then a nonempty run of non-`>` characters
(the capture), then the literal `>; rel="next"`. -/
def tryMatchHere (s : Str) : Option Str :=
  match s with
  | '<' :: rest =>
    let content := rest.takeWhile (fun c => !(c == '>'))
    let after := rest.dropWhile (fun c => !(c == '>'))
    if content.isEmpty then none
    else if isPre relNextSuffix after then some content
    else none
  | _ => none

/-- Leftmost match of the `rel="next"` pattern (regex `captures`). -/
def findNextLink : Str → Option Str
  | [] => none
  | c :: rest =>
    match tryMatchHere (c :: rest) with
    | some u => some u
    | none => findNextLink rest

/-- `next_page`: extract the next-page URL from the response headers;
a missing, unreadable or pattern-free `link` header yields `none`. -/
def next_page (link_header : Option (Option Str)) : Option Str :=
  findNextLink (linkHeaderStr link_header)

/-- The path segment whose presence in a URL path switches on the
`Accept: application/octet-stream` header. -/
def assetPathSegment : Str := "/releases/assets/".toList

/-- The part of a parsed URL that `get_headers` inspects. -/
structure UrlParts where
  path : Str
deriving DecidableEq

/-- `get_headers`: an `authorization` header carrying the configured token
when one is set, and an `accept: application/octet-stream` header when the
URL parsed successfully (`into_url` is modelled by the caller passing
`some` of the parsed parts) and its path contains `/releases/assets/`.
Headers are modelled as the list of inserted (name, value) pairs. -/
def get_headers (token : Option Str) (url : Option UrlParts) : List (Str × Str) :=
  let h0 : List (Str × Str) := []
  let h1 := match token with
    | some t => h0 ++ [("authorization".toList, "token ".toList ++ t)]
    | none => h0
  match url with
  | some u =>
    if containsSub u.path assetPathSegment then
      h1 ++ [("accept".toList, "application/octet-stream".toList)]
    else h1
  | none => h1

/- ------------------------------------------------------------------
Backend (`src/backend/forgejo.rs`).
------------------------------------------------------------------ -/

/-- The bare-`v` fallback of `strip_version_prefix`: when the tag starts
with `v`, Rust `trim_start_matches('v')` drops every leading `v`;
otherwise the tag is returned unchanged. -/
def stripVee (tag : Str) : Str :=
  if isPre ['v'] tag then tag.dropWhile (fun c => c == 'v') else tag

/-- `strip_version_prefix`: with a configured `version_prefix` that the tag
starts with, strip exactly that prefix; otherwise fall through to the
bare-`v` rule. -/
def stripVersionPrefix (vp : Option Str) (tag : Str) : Str :=
  match vp with
  | some p =>
    match stripPre p tag with
    | some stripped => stripped
    | none => stripVee tag
  | none => stripVee tag

/-- The release filter of `_list_remote_versions`:
`opts.get("version_prefix").is_none_or(.. starts_with ..)`. -/
def tagMatches (vp : Option Str) (r : ForgejoRelease) : Bool :=
  match vp with
  | none => true
  | some p => isPre p r.tag_name

/-- `_list_remote_versions` after the fetch: filter by the configured
`version_prefix`, strip it from each tag, and reverse the fetched
(newest-first) order. -/
def list_remote_versions (vp : Option Str) (releases : List ForgejoRelease) : List Str :=
  ((releases.filter (tagMatches vp)).map (fun r => stripVersionPrefix vp r.tag_name)).reverse

/-- First `/`-separated segment of a tool name
(Rust `full_repo.split('/').next().unwrap()`; `split` always yields at
least one item, the part before the first separator). -/
def firstSegment (s : Str) : Str := s.takeWhile (fun c => !(c == '/'))

/-- Models the `url` crate's `Url::parse` of `https://<host>` followed by
`Display`: parsing succeeds for a nonempty host without URL-delimiter
characters, and the rendered URL lowercases the host and carries the
canonical trailing `/` path (so `https://codeberg.org` renders as
`https://codeberg.org/`). -/
def renderHttpsHost (host : Str) : Option Str :=
  if host.isEmpty then none
  else if host.any (fun c => c == '/' || c == '\\' || c == '@' || c == ':'
      || c == '#' || c == '?' || c == ' ') then none
  else some ("https://".toList ++ toLowerStr host ++ ['/'])

/-- `get_api_url`: an `api_url` option is returned verbatim; otherwise the
host is the tool name's first `/`-segment and the result is the rendered
`https` URL with `api/v1` appended (`format!("{}api/v1", url)`). -/
def get_api_url (opts_api_url : Option Str) (tool_name : Str) : Option Str :=
  match opts_api_url with
  | some u => some u
  | none =>
    (renderHttpsHost (firstSegment tool_name)).map (fun rendered => rendered ++ "api/v1".toList)

/-- `find_asset_case_insensitive` over asset names: an exact match first
(`find` with `==`), then — only when none exists — a case-insensitive
match; the returned entry is the original-cased list element. -/
def find_asset_case_insensitive (assets : List Str) (target : Str) : Option Str :=
  match assets.find? (fun a => a == target) with
  | some a => some a
  | none => assets.find? (fun a => toLowerStr a == toLowerStr target)

/- ------------------------------------------------------------------
Glob-pattern matching (`matches_pattern`).
------------------------------------------------------------------ -/

/-- Rust `str::replace` with a one-character needle: each occurrence of
`needle` is replaced by `repl`. -/
def replaceChar (needle : Char) (repl : Str) (s : Str) : Str :=
  s.flatMap (fun c => if c == needle then repl else [c])

/-- The translation chain of `matches_pattern`:
`pattern.replace('.', "\\.").replace('*', ".*").replace('?', ".")`.
The later replacements never touch characters introduced by the earlier
ones, so the chain acts independently on each source character. -/
def toRegexBody (p : Str) : Str :=
  replaceChar '?' ['.'] (replaceChar '*' ['.', '*'] (replaceChar '.' ['\\', '.'] p))

/-- An atom of the regex fragment the translation can produce: `.`
(any character) or a literal character. -/
inductive RAtom where
  | dot : RAtom
  | lit : Char → RAtom
deriving DecidableEq

/-- One regex item: an atom, possibly under a `*` repetition. -/
structure RItem where
  atom : RAtom
  starred : Bool
deriving DecidableEq

/-- Characters that are regex metacharacters and hence not plain literals
in the translated pattern. -/
def isMeta (c : Char) : Bool :=
  c == '(' || c == ')' || c == '[' || c == ']' || c == '\x7b' || c == '\x7d'
    || c == '|' || c == '+' || c == '*' || c == '?' || c == '^' || c == '$'
    || c == '\\' || c == '.'

/-- A lexed regex token: an atom, or a `*` repetition marker. -/
inductive RTok where
  | atom : RAtom → RTok
  | star : RTok
deriving DecidableEq

/-- Lexer for the regex fragment reachable from glob translation: `\.` is
a literal-dot atom, `.` an any-character atom, `*` a repetition marker,
any other non-metacharacter a literal atom.  Regex constructs outside
this fragment are rejected (`none`), which the caller maps to the
source's `Regex::new` failure fallback. -/
def lexGlob : Str → Option (List RTok)
  | [] => some []
  | c :: rest =>
    if c == '\\' then
      match rest with
      | '.' :: rest2 => (lexGlob rest2).map (fun ts => RTok.atom (RAtom.lit '.') :: ts)
      | _ => none
    else if c == '.' then (lexGlob rest).map (fun ts => RTok.atom RAtom.dot :: ts)
    else if c == '*' then (lexGlob rest).map (fun ts => RTok.star :: ts)
    else if isMeta c then none
    else (lexGlob rest).map (fun ts => RTok.atom (RAtom.lit c) :: ts)

/-- Attach each `*` marker to its preceding atom; a `*` with nothing to
repeat (including a doubled `*`) is a regex error (`none`). -/
def groupStars : List RTok → Option (List RItem)
  | [] => some []
  | RTok.star :: _ => none
  | RTok.atom a :: RTok.star :: rest => (groupStars rest).map (fun r => ⟨a, true⟩ :: r)
  | RTok.atom a :: rest => (groupStars rest).map (fun r => ⟨a, false⟩ :: r)

/-- Compilation of a translated pattern: lex, then resolve repetitions. -/
def compileGlob (s : Str) : Option (List RItem) :=
  (lexGlob s).bind groupStars

/-- Does an atom match one character? -/
def amatch : RAtom → Char → Bool
  | RAtom.dot, _ => true
  | RAtom.lit c, x => c == x

/-- The suffixes of a string reachable by consuming zero or more leading
characters that each match atom `a` — the states a starred atom can leave
the matcher in. -/
def starChop (a : RAtom) : Str → List Str
  | [] => [[]]
  | c :: cs => (c :: cs) :: (if amatch a c then starChop a cs else [])

/-- Anchored matching of a compiled item list against a whole string
(the source wraps the translated pattern in `^…$`): a starred atom may
consume any run of matching characters. -/
def rmatch : List RItem → Str → Bool
  | [], s => s.isEmpty
  | it :: rest, s =>
    if it.starred then (starChop it.atom s).any (fun t => rmatch rest t)
    else
      match s with
      | [] => false
      | c :: cs => amatch it.atom c && rmatch rest cs

/-- `matches_pattern`: translate the glob pattern to a regex and test the
anchored match; when regex construction fails, fall back to substring
containment of the untranslated pattern. -/
def matches_pattern (asset_name pat : Str) : Bool :=
  match compileGlob (toRegexBody pat) with
  | some items => rmatch items asset_name
  | none => containsSub asset_name pat

/-- All suffixes of a string, longest first. -/
def suffixes : Str → List Str
  | [] => [[]]
  | c :: cs => (c :: cs) :: suffixes cs

/-- The spec's reading of the glob semantics, written from its words:
anchored, case-sensitive, `*` any run of characters (the rest of the
pattern matches some suffix), `?` any single character, every other
character (including `.`) itself.  Used to compare `matches_pattern`
against the specified behavior. -/
def globMatch : Str → Str → Bool
  | [], s => s.isEmpty
  | p :: ps, s =>
    if p == '*' then (suffixes s).any (fun t => globMatch ps t)
    else if p == '?' then
      match s with
      | [] => false
      | _ :: cs => globMatch ps cs
    else
      match s with
      | [] => false
      | c :: cs => p == c && globMatch ps cs

/-- A pattern character the glob translation handles as glob syntax or a
plain literal: `.`/`*`/`?` or any non-metacharacter. -/
def globSafe (c : Char) : Bool :=
  c == '.' || c == '*' || c == '?' || !isMeta c

/- ------------------------------------------------------------------
Lock entries and the install pipeline.
------------------------------------------------------------------ -/

/-- `/`-separated segments of a string; always at least one (possibly
empty) segment. -/
def splitOnSlash : Str → List Str
  | [] => [[]]
  | c :: rest =>
    if c == '/' then [] :: splitOnSlash rest
    else
      match splitOnSlash rest with
      | [] => [[c]]
      | seg :: segs => (c :: seg) :: segs

/-- Modelled from the spec: `get_filename_from_url` lives in
`backend/static_helpers.rs`, which is not among the provided sources; the
spec describes it as deriving the filename from the URL's last
slash-separated path segment. -/
def get_filename_from_url (url : Str) : Str :=
  (splitOnSlash url).getLastD []

/-- The `ReleaseAsset` built from an existing platform lock entry in
`install_version_`: a missing name is derived from the stored URL's last
path segment, missing URLs default to the empty string. -/
def assetFromLock (p : PlatformInfo) : ReleaseAsset :=
  { name := p.name.getD (get_filename_from_url (p.url.getD []))
  , url := p.url.getD []
  , url_api := p.url_api.getD [] }

/-- The asset-resolution step of `install_version_`: when a lock entry
exists for the current platform key the asset is rebuilt from it with no
release resolution; otherwise the network-backed resolver runs.  The
resolver's outcome is passed in as `resolved` together with the number of
network calls it performed, so the short-circuit's "zero network calls"
is observable. -/
def install_select_asset (lockEntry : Option PlatformInfo)
    (resolved : ReleaseAsset × Nat) : ReleaseAsset × Nat :=
  match lockEntry with
  | some p => (assetFromLock p, 0)
  | none => resolved

/-- Insert-or-overwrite on the platform lock map
(`tv.lock_platforms.entry(key).or_default()` followed by assigning all
three stored fields). -/
def lockInsert (m : List (Str × PlatformInfo)) (key : Str) (p : PlatformInfo) :
    List (Str × PlatformInfo) :=
  match m with
  | [] => [(key, p)]
  | (k, v) :: rest => if k == key then (k, p) :: rest else (k, v) :: lockInsert rest key p

/-- Lookup on the platform lock map. -/
def lockLookup (m : List (Str × PlatformInfo)) (key : Str) : Option PlatformInfo :=
  match m with
  | [] => none
  | (k, v) :: rest => if k == key then some v else lockLookup rest key

/-- The lock entry `download_and_install` writes for the chosen asset. -/
def lockEntryOf (asset : ReleaseAsset) : PlatformInfo :=
  { name := some asset.name, url := some asset.url, url_api := some asset.url_api }

/-- Archive extensions that add an extraction operation to the progress
count. -/
def needsExtraction (filename : Str) : Bool :=
  isSuf ".tar.gz".toList filename || isSuf ".tar.xz".toList filename
    || isSuf ".tar.bz2".toList filename || isSuf ".tar.zst".toList filename
    || isSuf ".tgz".toList filename || isSuf ".txz".toList filename
    || isSuf ".tbz2".toList filename || isSuf ".zip".toList filename

/-- Success or failure of each effectful step of `download_and_install`:
the `HEAD` probe of the download URL, the download itself, checksum
verification, artifact installation, and the outer checksum pass. -/
structure PipelineOutcome where
  headOk : Bool
  downloadOk : Bool
  verifyOk : Bool
  installOk : Bool
  checksumOk : Bool
deriving DecidableEq

/-- Result of one `download_and_install` run: the updated lock map, the
declared operation count, the URL chosen for the download, and whether
the whole pipeline succeeded. -/
structure PipelineResult where
  lock : List (Str × PlatformInfo)
  opCount : Nat
  chosenUrl : Str
  ok : Bool
deriving DecidableEq

/-- `download_and_install`: declare the operation count, write the chosen
asset into the platform lock entry, pick the download URL (falling back
to the API URL when the `HEAD` probe fails), then download, verify,
install and run the outer checksum pass — each of which can fail, after
the lock entry is already written. -/
def download_and_install (lock : List (Str × PlatformInfo)) (key : Str)
    (asset : ReleaseAsset) (hasChecksum : Bool) (out : PipelineOutcome) :
    PipelineResult :=
  let opCount := 1 + (if hasChecksum then 1 else 0)
    + (if needsExtraction asset.name then 1 else 0)
  let lock2 := lockInsert lock key (lockEntryOf asset)
  let url := if out.headOk then asset.url else asset.url_api
  let ok := out.downloadOk && out.verifyOk && out.installOk && out.checksumOk
  { lock := lock2, opCount := opCount, chosenUrl := url, ok := ok }

/- ------------------------------------------------------------------
Helper lemmas.
------------------------------------------------------------------ -/

theorem stripPre_append {p tag r : Str} (h : stripPre p tag = some r) : p ++ r = tag := by
  induction p generalizing tag with
  | nil =>
    simp [stripPre] at h
    simpa using h.symm
  | cons x xs ih =>
    cases tag with
    | nil => simp [stripPre] at h
    | cons c cs =>
      by_cases hx : x = c
      · subst hx
        simp [stripPre] at h
        simpa using ih h
      · simp [stripPre, hx] at h

theorem dropWhile_head_false {p : Char → Bool} {l : Str} {c : Char} {rest : Str}
    (h : l.dropWhile p = c :: rest) : p c = false := by
  induction l with
  | nil => simp [List.dropWhile] at h
  | cons x xs ih =>
    by_cases hx : p x
    · exact ih (by simpa [List.dropWhile, hx] using h)
    · simp [List.dropWhile, hx] at h
      simp [← h.1, hx]

theorem isPre_v_false {l : Str} (h : ∀ c rest, l = c :: rest → (c == 'v') = false) :
    isPre ['v'] l = false := by
  cases l with
  | nil => rfl
  | cons c cs =>
    have hc := h c cs rfl
    simp at hc
    simp [isPre]
    exact fun hv => hc hv.symm

/- ------------------------------------------------------------------
C1: strip_version_prefix.
------------------------------------------------------------------ -/

/-- C1 (counterexample): the claim says a tag starting with `v` (and not
matching a configured `version_prefix`) loses exactly one leading `v`,
so `"vv1"` would become `"v1"`; the code's `trim_start_matches('v')`
removes every leading `v` and yields `"1"`. -/
theorem C1_counterexample :
    stripVersionPrefix none "vv1".toList = "1".toList ∧
    stripVersionPrefix none "vv1".toList ≠ "v1".toList := by
  decide

/-- C1 (amended): if a `version_prefix` is configured and the tag starts
with it, `strip_version_prefix` removes exactly that prefix; otherwise,
if the tag starts with `v`, it removes all leading `v` characters (not
just one); otherwise it returns the tag unchanged.  The claim's listed
examples hold as stated. -/
theorem C1_strip_version_prefix_amended (vp : Option Str) (tag : Str) :
    (∀ p r, vp = some p → stripPre p tag = some r →
      stripVersionPrefix vp tag = r ∧ p ++ r = tag) ∧
    ((vp = none ∨ ∃ p, vp = some p ∧ stripPre p tag = none) →
      stripVersionPrefix vp tag = stripVee tag) ∧
    (isPre ['v'] tag = true →
      stripVee tag = tag.dropWhile (fun c => c == 'v') ∧
      tag.takeWhile (fun c => c == 'v') ++ stripVee tag = tag ∧
      isPre ['v'] (stripVee tag) = false) ∧
    (isPre ['v'] tag = false → stripVee tag = tag) ∧
    stripVersionPrefix none "v1.0.0".toList = "1.0.0".toList ∧
    stripVersionPrefix none "1.0.0".toList = "1.0.0".toList ∧
    stripVersionPrefix (some "release-".toList) "release-1.0.0".toList = "1.0.0".toList ∧
    stripVersionPrefix (some "release-".toList) "1.0.0".toList = "1.0.0".toList := by
  refine ⟨?_, ?_, ?_, ?_, by decide, by decide, by decide, by decide⟩
  · intro p r hvp hsp
    subst hvp
    simp [stripVersionPrefix, hsp]
    exact stripPre_append hsp
  · rintro (hvp | ⟨p, hvp, hsp⟩)
    · subst hvp; rfl
    · subst hvp; simp [stripVersionPrefix, hsp]
  · intro hv
    refine ⟨by simp [stripVee, hv], ?_, ?_⟩
    · simp [stripVee, hv]
    · simp only [stripVee, hv, if_true]
      apply isPre_v_false
      intro c rest hc
      exact @dropWhile_head_false (fun x => x == 'v') tag c rest hc
  · intro hv
    simp [stripVee, hv]

/-- C1 (witness): the amended theorem applied to the configured-prefix
example. -/
theorem C1_witness :
    stripVersionPrefix (some "release-".toList) "release-1.0.0".toList = "1.0.0".toList :=
  (C1_strip_version_prefix_amended (some "release-".toList)
    "release-1.0.0".toList).2.2.2.2.2.2.1

/- ------------------------------------------------------------------
C2: lock short-circuit in install_version_.
------------------------------------------------------------------ -/

/-- C2: when a platform lock entry exists for the current platform key,
`install_version_` builds the `ReleaseAsset` directly from the stored
fields (deriving a missing name from the stored URL's last path segment)
with zero release-resolution network calls; an entry written from a
previous install's chosen asset reproduces that asset exactly. -/
theorem C2_install_lock_short_circuit (p : PlatformInfo) (resolved : ReleaseAsset × Nat)
    (a : ReleaseAsset) :
    install_select_asset (some p) resolved = (assetFromLock p, 0) ∧
    (install_select_asset (some p) resolved).2 = 0 ∧
    assetFromLock (lockEntryOf a) = a ∧
    (p.name = none →
      (assetFromLock p).name = get_filename_from_url (p.url.getD [])) ∧
    (install_select_asset none resolved = resolved) := by
  refine ⟨rfl, rfl, ?_, ?_, rfl⟩
  · cases a; rfl
  · intro h
    simp [assetFromLock, h]

/-- C2 (witness): a concrete lock entry with a missing name is rebuilt
from the stored URL. -/
theorem C2_witness :
    (assetFromLock ⟨none, some "https://h/api/v1/x/file.tgz".toList, some [] ⟩).name =
      get_filename_from_url "https://h/api/v1/x/file.tgz".toList :=
  (C2_install_lock_short_circuit
    (⟨none, some "https://h/api/v1/x/file.tgz".toList, some []⟩ : PlatformInfo)
    ((⟨[], [], []⟩ : ReleaseAsset), 7) (⟨[], [], []⟩ : ReleaseAsset)).2.2.2.1 rfl

/- ------------------------------------------------------------------
C4: draft/prerelease filtering.
------------------------------------------------------------------ -/

/-- C4: every release surfaced by the release-list query has both the
draft and prerelease flags cleared, the filter running after all fetched
pages are concatenated; a release fetched by exact tag is returned
unfiltered, so either flag may still be set. -/
theorem C4_release_list_filtered (listAll : Bool) (page1 : List ForgejoRelease)
    (rest : List (List ForgejoRelease)) (r : ForgejoRelease)
    (h : r ∈ list_releases_ listAll page1 rest) :
    (r.draft = false ∧ r.prerelease = false) ∧
    list_releases_ true page1 rest =
      (page1 ++ rest.flatten).filter (fun x => !x.draft && !x.prerelease) ∧
    (∀ rel, get_release_ rel = rel) := by
  refine ⟨?_, rfl, fun _ => rfl⟩
  have hmem := List.mem_filter.mp h
  have hp := hmem.2
  simp only [Bool.and_eq_true, Bool.not_eq_true'] at hp
  exact hp

/-- C4 (witness): the filtering theorem applied to a concrete fetch in
which a draft and a prerelease are dropped, together with a prerelease
release surviving an exact-tag fetch untouched. -/
theorem C4_witness :
    (((⟨"v1".toList, false, false, []⟩ : ForgejoRelease).draft = false ∧
      (⟨"v1".toList, false, false, []⟩ : ForgejoRelease).prerelease = false) ∧
     list_releases_ true [⟨"v1".toList, false, false, []⟩]
        [[⟨"v2".toList, true, false, []⟩, ⟨"v3".toList, false, true, []⟩]] =
      (([⟨"v1".toList, false, false, []⟩] : List ForgejoRelease) ++
        ([[⟨"v2".toList, true, false, []⟩, ⟨"v3".toList, false, true, []⟩]] :
          List (List ForgejoRelease)).flatten).filter
        (fun x => !x.draft && !x.prerelease) ∧
     (∀ rel, get_release_ rel = rel)) ∧
    (get_release_ ⟨"v9".toList, false, true, []⟩).prerelease = true := by
  refine ⟨?_, rfl⟩
  exact C4_release_list_filtered true [⟨"v1".toList, false, false, []⟩]
    [[⟨"v2".toList, true, false, []⟩, ⟨"v3".toList, false, true, []⟩]]
    ⟨"v1".toList, false, false, []⟩ (by decide)

/- ------------------------------------------------------------------
C7: lock entry written before the download.
------------------------------------------------------------------ -/

theorem lockLookup_lockInsert (m : List (Str × PlatformInfo)) (key : Str)
    (p : PlatformInfo) : lockLookup (lockInsert m key p) key = some p := by
  induction m with
  | nil => simp [lockInsert, lockLookup]
  | cons kv rest ih =>
    obtain ⟨k, v⟩ := kv
    by_cases hk : k = key
    · simp [lockInsert, lockLookup, hk]
    · simp [lockInsert, lockLookup, hk, ih]

/-- C7: `download_and_install` records the chosen asset's name, download
URL and API URL in the platform lock entry unconditionally — the entry is
written before the download/verify/install steps run, so it is present
whatever their outcome; the run as a whole succeeds only when every one
of those steps succeeds. -/
theorem C7_lock_written_before_download (lock : List (Str × PlatformInfo)) (key : Str)
    (asset : ReleaseAsset) (hasChecksum : Bool) (out : PipelineOutcome) :
    lockLookup (download_and_install lock key asset hasChecksum out).lock key =
      some (lockEntryOf asset) ∧
    ((download_and_install lock key asset hasChecksum out).ok = true ↔
      out.downloadOk = true ∧ out.verifyOk = true ∧ out.installOk = true ∧
        out.checksumOk = true) ∧
    (download_and_install lock key asset hasChecksum out).chosenUrl =
      (if out.headOk then asset.url else asset.url_api) := by
  refine ⟨lockLookup_lockInsert lock key (lockEntryOf asset), ?_, rfl⟩
  simp [download_and_install, and_assoc]

/-- C7 (witness): the pipeline theorem at a concrete run whose download
fails — the lock entry still holds the chosen asset. -/
theorem C7_witness :
    lockLookup (download_and_install [] "linux-x64".toList
        (⟨"f.zip".toList, "https://u".toList, "https://a".toList⟩ : ReleaseAsset) false
        ⟨true, false, true, true, true⟩).lock "linux-x64".toList =
      some (lockEntryOf
        (⟨"f.zip".toList, "https://u".toList, "https://a".toList⟩ : ReleaseAsset)) :=
  (C7_lock_written_before_download [] "linux-x64".toList
    (⟨"f.zip".toList, "https://u".toList, "https://a".toList⟩ : ReleaseAsset) false
    ⟨true, false, true, true, true⟩).1

/- ------------------------------------------------------------------
C6: case-insensitive asset lookup.
------------------------------------------------------------------ -/

/-- C6: `find_asset_case_insensitive` prefers an exact case-sensitive
match, falls back to the first case-insensitive match, always returns an
original-cased list entry, and returns `none` exactly when no
case-insensitive match exists.  The `Darwin` example of the spec holds. -/
theorem C6_find_asset_case_insensitive (assets : List Str) (target : Str) :
    (find_asset_case_insensitive assets target = none ↔
      ∀ a ∈ assets, toLowerStr a ≠ toLowerStr target) ∧
    (target ∈ assets → find_asset_case_insensitive assets target = some target) ∧
    (∀ a, find_asset_case_insensitive assets target = some a →
      a ∈ assets ∧ toLowerStr a = toLowerStr target) ∧
    (target ∉ assets →
      find_asset_case_insensitive assets target =
        assets.find? (fun a => toLowerStr a == toLowerStr target)) ∧
    find_asset_case_insensitive ["tool-1.0.0-Darwin-x86_64.tar.gz".toList]
        "tool-1.0.0-darwin-x86_64.tar.gz".toList =
      some "tool-1.0.0-Darwin-x86_64.tar.gz".toList ∧
    find_asset_case_insensitive ["tool-1.0.0-Darwin-x86_64.tar.gz".toList]
        "no-such-asset.tar.gz".toList = none := by
  refine ⟨?_, ?_, ?_, ?_, by decide, by decide⟩
  · constructor
    · intro hnone
      cases hfind : assets.find? (fun a => a == target) with
      | some b => simp [find_asset_case_insensitive, hfind] at hnone
      | none =>
        have h2 : assets.find? (fun a => toLowerStr a == toLowerStr target) = none := by
          simpa [find_asset_case_insensitive, hfind] using hnone
        intro a ha
        have := List.find?_eq_none.mp h2 a ha
        simpa using this
    · intro hall
      cases hfind : assets.find? (fun a => a == target) with
      | some b =>
        have hb := List.find?_some hfind
        have hbm := List.mem_of_find?_eq_some hfind
        have : b = target := by simpa using hb
        subst this
        exact absurd rfl (hall b hbm)
      | none =>
        have h2 : assets.find? (fun a => toLowerStr a == toLowerStr target) = none :=
          List.find?_eq_none.mpr (fun a ha => by simpa using hall a ha)
        simp [find_asset_case_insensitive, hfind, h2]
  · intro hmem
    cases hfind : assets.find? (fun a => a == target) with
    | some b =>
      have hb : b = target := by simpa using List.find?_some hfind
      subst hb
      simp [find_asset_case_insensitive, hfind]
    | none =>
      have := List.find?_eq_none.mp hfind target hmem
      simp at this
  · intro a hsome
    cases hfind : assets.find? (fun x => x == target) with
    | some b =>
      have hb : b = target := by simpa using List.find?_some hfind
      have hba : b = a := by
        have : some b = some a := by simpa [find_asset_case_insensitive, hfind] using hsome
        simpa using this
      subst hba
      exact ⟨List.mem_of_find?_eq_some hfind, by rw [hb]⟩
    | none =>
      have h2 : assets.find? (fun x => toLowerStr x == toLowerStr target) = some a := by
        simpa [find_asset_case_insensitive, hfind] using hsome
      exact ⟨List.mem_of_find?_eq_some h2, by simpa using List.find?_some h2⟩
  · intro hnm
    have hfind : assets.find? (fun a => a == target) = none :=
      List.find?_eq_none.mpr (fun a ha => by
        simp
        intro hcontra
        exact hnm (hcontra ▸ ha))
    simp [find_asset_case_insensitive, hfind]

/-- C6 (witness): the lookup theorem at the `Darwin` example. -/
theorem C6_witness :
    find_asset_case_insensitive ["tool-1.0.0-Darwin-x86_64.tar.gz".toList]
        "tool-1.0.0-darwin-x86_64.tar.gz".toList =
      some "tool-1.0.0-Darwin-x86_64.tar.gz".toList :=
  (C6_find_asset_case_insensitive ["tool-1.0.0-Darwin-x86_64.tar.gz".toList]
    "tool-1.0.0-darwin-x86_64.tar.gz".toList).2.2.2.2.1

/- ------------------------------------------------------------------
C8: request-header construction.
------------------------------------------------------------------ -/

/-- C8: `get_headers` adds the `authorization` header carrying the
configured token exactly when one is configured, adds
`accept: application/octet-stream` exactly when the URL parsed and its
path contains the asset-download segment, and adds nothing else (the
header count equals the number of triggered conditions). -/
theorem C8_get_headers (token : Option Str) (url : Option UrlParts) :
    (∀ t, token = some t →
      ("authorization".toList, "token ".toList ++ t) ∈ get_headers token url) ∧
    (token = none →
      ∀ v, ("authorization".toList, v) ∉ get_headers token url) ∧
    (("accept".toList, "application/octet-stream".toList) ∈ get_headers token url ↔
      ∃ u, url = some u ∧ containsSub u.path assetPathSegment = true) ∧
    (get_headers token url).length =
      ((if token.isSome then 1 else 0) +
        (match url with
         | some u => if containsSub u.path assetPathSegment then 1 else 0
         | none => 0)) := by
  cases token with
  | none =>
    cases url with
    | none => simp [get_headers]
    | some u =>
      by_cases hc : containsSub u.path assetPathSegment
      · simp [get_headers, hc]
      · simp [get_headers, hc]
  | some t =>
    cases url with
    | none => simp [get_headers]
    | some u =>
      by_cases hc : containsSub u.path assetPathSegment
      · refine ⟨?_, ?_, ?_, ?_⟩
        · intro t' ht'
          have : t' = t := by simpa using ht'.symm
          subst this
          simp [get_headers, hc]
        · intro h; cases h
        · simp [get_headers, hc]
        · simp [get_headers, hc]
      · refine ⟨?_, ?_, ?_, ?_⟩
        · intro t' ht'
          have : t' = t := by simpa using ht'.symm
          subst this
          simp [get_headers, hc]
        · intro h; cases h
        · simp [get_headers, hc]
        · simp [get_headers, hc]

/-- C8 (witness): with a configured token and an asset-download URL both
headers are present and nothing else. -/
theorem C8_witness :
    ("authorization".toList, "token ".toList ++ "tok".toList) ∈
      get_headers (some "tok".toList)
        (some ⟨"/api/v1/repos/o/r/releases/assets/7".toList⟩) ∧
    (get_headers (some "tok".toList)
        (some ⟨"/api/v1/repos/o/r/releases/assets/7".toList⟩)).length = 2 := by
  refine ⟨(C8_get_headers (some "tok".toList)
    (some ⟨"/api/v1/repos/o/r/releases/assets/7".toList⟩)).1 "tok".toList rfl, ?_⟩
  have h := (C8_get_headers (some "tok".toList)
    (some ⟨"/api/v1/repos/o/r/releases/assets/7".toList⟩)).2.2.2
  rw [h]
  decide

/- ------------------------------------------------------------------
C9: API base URL derivation.
------------------------------------------------------------------ -/

/-- C9: a configured `api_url` option is returned verbatim; otherwise the
API base URL is the `https` URL of the tool name's first `/`-separated
segment, normalized by URL parsing (lowercased host, canonical trailing
slash), with `api/v1` appended — so `codeberg.org/owner/repo` yields
`https://codeberg.org/api/v1`. -/
theorem C9_get_api_url (opts_api_url : Option Str) (tool_name host rendered : Str) :
    (∀ u, opts_api_url = some u → get_api_url opts_api_url tool_name = some u) ∧
    (opts_api_url = none →
      get_api_url opts_api_url tool_name =
        (renderHttpsHost (tool_name.takeWhile (fun c => !(c == '/')))).map
          (fun r => r ++ "api/v1".toList)) ∧
    (renderHttpsHost host = some rendered →
      rendered = "https://".toList ++ toLowerStr host ++ ['/']) ∧
    get_api_url none "codeberg.org/owner/repo".toList =
      some "https://codeberg.org/api/v1".toList := by
  refine ⟨?_, ?_, ?_, by decide⟩
  · intro u hu
    subst hu
    rfl
  · intro h
    subst h
    rfl
  · intro hr
    by_cases h1 : host.isEmpty
    · simp [renderHttpsHost, h1] at hr
    · by_cases h2 : host.any (fun c => c == '/' || c == '\\' || c == '@' || c == ':'
        || c == '#' || c == '?' || c == ' ')
      · simp [renderHttpsHost, h1, h2] at hr
      · have := (by simpa [renderHttpsHost, h1, h2] using hr : _ = rendered)
        exact this.symm

/-- C9 (witness): the derivation theorem at the `codeberg.org` example. -/
theorem C9_witness :
    get_api_url none "codeberg.org/owner/repo".toList =
      some "https://codeberg.org/api/v1".toList :=
  (C9_get_api_url none "codeberg.org/owner/repo".toList [] []).2.2.2

/- ------------------------------------------------------------------
C3: list_remote_versions.
------------------------------------------------------------------ -/

/-- C3: `_list_remote_versions` keeps exactly the releases whose tag
starts with the configured `version_prefix` (all of them when unset),
strips the prefix from each kept tag, and returns the results in the
reverse of fetch order: element `i` of the result is the stripped tag of
kept release `n - 1 - i`.  Upstream `[v3, v2, v1]` yields
`["1", "2", "3"]`. -/
theorem C3_list_remote_versions (vp : Option Str) (rels : List ForgejoRelease) (i : Nat)
    (h : i < (list_remote_versions vp rels).length) :
    (list_remote_versions vp rels).length = (rels.filter (tagMatches vp)).length ∧
    (list_remote_versions vp rels)[i]? =
      ((rels.filter (tagMatches vp))[(rels.filter (tagMatches vp)).length - 1 - i]?).map
        (fun r => stripVersionPrefix vp r.tag_name) ∧
    list_remote_versions none
      [⟨"v3".toList, false, false, []⟩, ⟨"v2".toList, false, false, []⟩,
        ⟨"v1".toList, false, false, []⟩] =
      ["1".toList, "2".toList, "3".toList] := by
  refine ⟨by simp [list_remote_versions], ?_, by decide⟩
  have hlen : i < ((rels.filter (tagMatches vp)).map
      (fun r => stripVersionPrefix vp r.tag_name)).length := by
    simpa [list_remote_versions] using h
  rw [list_remote_versions, List.getElem?_reverse hlen]
  simp [List.getElem?_map]

/-- C3 (witness): the listing theorem at the `[v3, v2, v1]` example,
checking the reversed first element. -/
theorem C3_witness :
    (list_remote_versions none
      [⟨"v3".toList, false, false, []⟩, ⟨"v2".toList, false, false, []⟩,
        ⟨"v1".toList, false, false, []⟩] =
      ["1".toList, "2".toList, "3".toList]) :=
  (C3_list_remote_versions none
    [⟨"v3".toList, false, false, []⟩, ⟨"v2".toList, false, false, []⟩,
      ⟨"v1".toList, false, false, []⟩] 0 (by decide)).2.2

/- ------------------------------------------------------------------
C5: matches_pattern versus the specified glob semantics.
------------------------------------------------------------------ -/

/-- The image of one pattern character under the three `replace` calls. -/
def trChar (c : Char) : Str :=
  if c == '.' then ['\\', '.']
  else if c == '*' then ['.', '*']
  else if c == '?' then ['.']
  else [c]

/-- The token list one pattern character lexes to. -/
def trTok (c : Char) : List RTok :=
  if c == '.' then [RTok.atom (RAtom.lit '.')]
  else if c == '*' then [RTok.atom RAtom.dot, RTok.star]
  else if c == '?' then [RTok.atom RAtom.dot]
  else [RTok.atom (RAtom.lit c)]

/-- The token list a glob pattern lexes to. -/
def globToks : Str → List RTok
  | [] => []
  | c :: ps => trTok c ++ globToks ps

/-- Does a token list start with a repetition marker? -/
def headIsStarTok (l : List RTok) : Bool := l.head? == some RTok.star

/-- The compiled item a glob-safe pattern character denotes. -/
def globItem (c : Char) : RItem :=
  if c == '.' then ⟨RAtom.lit '.', false⟩
  else if c == '*' then ⟨RAtom.dot, true⟩
  else if c == '?' then ⟨RAtom.dot, false⟩
  else ⟨RAtom.lit c, false⟩

/-- The item list a glob-safe pattern compiles to. -/
def globItems : Str → List RItem
  | [] => []
  | c :: ps => globItem c :: globItems ps

theorem replaceChar_append (n : Char) (r a b : Str) :
    replaceChar n r (a ++ b) = replaceChar n r a ++ replaceChar n r b := by
  simp [replaceChar]

theorem toRegexBody_cons (c : Char) (p : Str) :
    toRegexBody (c :: p) = trChar c ++ toRegexBody p := by
  by_cases h1 : c = '.'
  · subst h1
    simp [toRegexBody, replaceChar, trChar]
  · by_cases h2 : c = '*'
    · subst h2
      simp [toRegexBody, replaceChar, trChar, h1]
    · by_cases h3 : c = '?'
      · subst h3
        simp [toRegexBody, replaceChar, trChar, h1, h2]
      · simp [toRegexBody, replaceChar, trChar, h1, h2, h3]

theorem lexGlob_bs_dot (l : Str) :
    lexGlob ('\\' :: '.' :: l) =
      (lexGlob l).map (fun ts => RTok.atom (RAtom.lit '.') :: ts) := by
  rw [lexGlob.eq_def]
  simp

theorem lexGlob_dot (l : Str) :
    lexGlob ('.' :: l) = (lexGlob l).map (fun ts => RTok.atom RAtom.dot :: ts) := by
  rw [lexGlob.eq_def]
  simp

theorem lexGlob_star (l : Str) :
    lexGlob ('*' :: l) = (lexGlob l).map (fun ts => RTok.star :: ts) := by
  rw [lexGlob.eq_def]
  simp

theorem lexGlob_lit {c : Char} (l : Str) (hc : isMeta c = false) :
    lexGlob (c :: l) = (lexGlob l).map (fun ts => RTok.atom (RAtom.lit c) :: ts) := by
  have hbs : ¬ c = '\\' := fun hcc => by subst hcc; simp [isMeta] at hc
  have hdot : ¬ c = '.' := fun hcc => by subst hcc; simp [isMeta] at hc
  have hstar : ¬ c = '*' := fun hcc => by subst hcc; simp [isMeta] at hc
  rw [lexGlob.eq_def]
  simp [hbs, hdot, hstar, hc]

theorem lexGlob_toRegexBody {p : Str} (h : p.all globSafe = true) :
    lexGlob (toRegexBody p) = some (globToks p) := by
  induction p with
  | nil => rfl
  | cons c ps ih =>
    simp only [List.all_cons, Bool.and_eq_true] at h
    have hc := h.1
    have ihs := ih h.2
    rw [toRegexBody_cons]
    by_cases h1 : c = '.'
    · subst h1
      simp [trChar, lexGlob_bs_dot, ihs, globToks, trTok]
    · by_cases h2 : c = '*'
      · subst h2
        simp [trChar, lexGlob_dot, lexGlob_star, ihs, globToks, trTok]
      · by_cases h3 : c = '?'
        · subst h3
          simp [trChar, lexGlob_dot, ihs, globToks, trTok, h1, h2]
        · have hm : isMeta c = false := by
            simp [globSafe, h1, h2, h3] at hc
            exact hc
          simp [trChar, lexGlob_lit _ hm, ihs, globToks, trTok, h1, h2, h3]

theorem globToks_head_not_star (p : Str) : headIsStarTok (globToks p) = false := by
  cases p with
  | nil => rfl
  | cons c ps =>
    simp only [globToks, trTok]
    by_cases h1 : c = '.'
    · simp [h1, headIsStarTok]
    · by_cases h2 : c = '*'
      · simp [h1, h2, headIsStarTok]
      · by_cases h3 : c = '?'
        · simp [h1, h2, h3, headIsStarTok]
        · simp [h1, h2, h3, headIsStarTok]

theorem groupStars_atom {a : RAtom} {ts : List RTok} (h : headIsStarTok ts = false) :
    groupStars (RTok.atom a :: ts) =
      (groupStars ts).map (fun r => (⟨a, false⟩ : RItem) :: r) := by
  cases ts with
  | nil => rfl
  | cons t ts' =>
    cases t with
    | star => simp [headIsStarTok] at h
    | atom b => rfl

theorem groupStars_globToks (p : Str) :
    groupStars (globToks p) = some (globItems p) := by
  induction p with
  | nil => rfl
  | cons c ps ih =>
    simp only [globToks, globItems]
    by_cases h1 : c = '.'
    · subst h1
      simp [trTok, groupStars_atom (globToks_head_not_star ps), ih, globItem]
    · by_cases h2 : c = '*'
      · subst h2
        simp [trTok, groupStars, ih, globItem]
      · by_cases h3 : c = '?'
        · subst h3
          simp [trTok, groupStars_atom (globToks_head_not_star ps), ih, globItem]
        · simp [trTok, groupStars_atom (globToks_head_not_star ps), ih, globItem,
            h1, h2, h3]

theorem compileGlob_toRegexBody {p : Str} (h : p.all globSafe = true) :
    compileGlob (toRegexBody p) = some (globItems p) := by
  simp only [compileGlob, lexGlob_toRegexBody h, Option.some_bind]
  exact groupStars_globToks p

theorem starChop_dot (s : Str) : starChop RAtom.dot s = suffixes s := by
  induction s with
  | nil => rfl
  | cons c cs ih => simp [starChop, suffixes, amatch, ih]

theorem rmatch_globItems (p : Str) : ∀ s, rmatch (globItems p) s = globMatch p s := by
  induction p with
  | nil => intro s; rfl
  | cons c ps ih =>
    intro s
    simp only [globItems]
    by_cases h1 : c = '.'
    · subst h1
      cases s with
      | nil => simp [rmatch, globMatch, globItem]
      | cons x cs => simp [rmatch, globMatch, globItem, amatch, ih cs]
    · by_cases h2 : c = '*'
      · subst h2
        have hfun : (fun t => rmatch (globItems ps) t) = fun t => globMatch ps t :=
          funext ih
        simp [rmatch, globMatch, globItem, starChop_dot, hfun]
      · by_cases h3 : c = '?'
        · subst h3
          cases s with
          | nil => simp [rmatch, globMatch, globItem]
          | cons x cs => simp [rmatch, globMatch, globItem, amatch, ih cs]
        · cases s with
          | nil => simp [rmatch, globMatch, globItem, h1, h2, h3]
          | cons x cs => simp [rmatch, globMatch, globItem, amatch, ih cs, h1, h2, h3]

/-- C5: for glob-style patterns (no regex metacharacters other than the
translated `.`, `*`, `?`), `matches_pattern` is exactly the anchored
case-sensitive glob match in which `.` matches only a literal dot, `*`
any run of characters and `?` any single character; when regex
construction fails, it falls back to substring containment of the raw
pattern.  Pattern `test-*` accepts `test-v1.0.0.zip` and rejects
`other-v1.0.0.zip`. -/
theorem C5_matches_pattern_glob (name pat : Str) (h : pat.all globSafe = true) :
    matches_pattern name pat = globMatch pat name ∧
    (∀ nm p2, compileGlob (toRegexBody p2) = none →
      matches_pattern nm p2 = containsSub nm p2) ∧
    matches_pattern "test-v1.0.0.zip".toList "test-*".toList = true ∧
    matches_pattern "other-v1.0.0.zip".toList "test-*".toList = false := by
  refine ⟨?_, ?_, by decide, by decide⟩
  · rw [matches_pattern.eq_def, compileGlob_toRegexBody h]
    exact rmatch_globItems pat name
  · intro nm p2 hc
    rw [matches_pattern.eq_def, hc]

/-- C5 (witness): the glob theorem applied at the spec's two examples. -/
theorem C5_witness :
    matches_pattern "test-v1.0.0.zip".toList "test-*".toList = true ∧
    matches_pattern "other-v1.0.0.zip".toList "test-*".toList = false :=
  ⟨(C5_matches_pattern_glob "test-v1.0.0.zip".toList "test-*".toList (by decide)).2.2.1,
   (C5_matches_pattern_glob "other-v1.0.0.zip".toList "test-*".toList (by decide)).2.2.2⟩

/- ------------------------------------------------------------------
C10: next_page never fails.
------------------------------------------------------------------ -/

theorem isPre_append_right (a t : Str) : isPre a (a ++ t) = true := by
  induction a with
  | nil => rfl
  | cons x xs ih => simp [isPre, ih]

theorem isPre_append_cancel (a b c : Str) : isPre (a ++ b) (a ++ c) = isPre b c := by
  induction a with
  | nil => rfl
  | cons x xs ih => simp [isPre, ih]

theorem isPre_exists {sub s : Str} (h : isPre sub s = true) : ∃ t, s = sub ++ t := by
  induction sub generalizing s with
  | nil => exact ⟨s, rfl⟩
  | cons x xs ih =>
    cases s with
    | nil => simp [isPre] at h
    | cons c cs =>
      simp only [isPre, Bool.and_eq_true, beq_iff_eq] at h
      obtain ⟨t, ht⟩ := ih h.2
      exact ⟨t, by simp [h.1, ht]⟩

theorem all_takeWhile_self (p : Char → Bool) (l : Str) :
    (l.takeWhile p).all p = true := by
  induction l with
  | nil => rfl
  | cons c cs ih =>
    by_cases hc : p c
    · simp [List.takeWhile_cons, hc, ih]
    · simp [List.takeWhile_cons, hc]

theorem takeWhile_all_append {p : Char → Bool} {u : Str} (hu : u.all p = true)
    {y : Char} (hy : p y = false) (ys : Str) :
    (u ++ y :: ys).takeWhile p = u ∧ (u ++ y :: ys).dropWhile p = y :: ys := by
  induction u with
  | nil => simp [List.takeWhile_cons, List.dropWhile_cons, hy]
  | cons x xs ih =>
    simp only [List.all_cons, Bool.and_eq_true] at hu
    have := ih hu.2
    simp [List.takeWhile_cons, List.dropWhile_cons, hu.1, this.1, this.2]

theorem tryMatchHere_sound {s u : Str} (h : tryMatchHere s = some u) :
    u ≠ [] ∧ u.all (fun c => !(c == '>')) = true ∧
      isPre ('<' :: u ++ relNextSuffix) s = true := by
  rw [tryMatchHere.eq_def] at h
  split at h
  next rest =>
    by_cases hemp : (rest.takeWhile (fun c => !(c == '>'))).isEmpty
    · simp [hemp] at h
    · by_cases hsuf : isPre relNextSuffix (rest.dropWhile (fun c => !(c == '>'))) = true
      · have hu : rest.takeWhile (fun c => !(c == '>')) = u := by
          simpa [hemp, hsuf] using h
        obtain ⟨t, ht⟩ := isPre_exists hsuf
        have hsplit : u ++ (relNextSuffix ++ t) = rest := by
          rw [← hu, ← ht]
          exact List.takeWhile_append_dropWhile _ _
        refine ⟨?_, ?_, ?_⟩
        · intro hnil
          rw [hnil] at hu
          exact hemp (by simp [← hu])
        · rw [← hu]
          exact all_takeWhile_self _ _
        · simp only [List.cons_append, isPre, Bool.and_eq_true, beq_iff_eq]
          refine ⟨by simp, ?_⟩
          rw [← hsplit, ← List.append_assoc]
          exact isPre_append_right _ _
      · simp [hemp, hsuf] at h
  next => simp at h

theorem containsSub_cons (c : Char) (rest sub : Str) :
    containsSub (c :: rest) sub = (isPre sub (c :: rest) || containsSub rest sub) := by
  rw [containsSub.eq_def]

theorem tryMatchHere_exact {s u : Str} (hne : u ≠ [])
    (hall : u.all (fun c => !(c == '>')) = true)
    (h : isPre ('<' :: u ++ relNextSuffix) s = true) : tryMatchHere s = some u := by
  obtain ⟨t, ht⟩ := isPre_exists h
  obtain ⟨sufTail, hsuf⟩ : ∃ st, relNextSuffix = '>' :: st := ⟨_, rfl⟩
  subst ht
  have harr : ('<' :: u ++ relNextSuffix) ++ t = '<' :: (u ++ ('>' :: (sufTail ++ t))) := by
    rw [hsuf]
    simp
  rw [harr, tryMatchHere]
  have hy : ((fun c => !(c == '>')) '>') = false := rfl
  have htake := takeWhile_all_append hall hy (sufTail ++ t)
  rw [htake.1, htake.2]
  have hne2 : u.isEmpty = false := by
    cases u with
    | nil => exact absurd rfl hne
    | cons a as => rfl
  have hsuffpre : isPre relNextSuffix ('>' :: (sufTail ++ t)) = true := by
    rw [hsuf]
    simp only [isPre, Bool.and_eq_true, beq_iff_eq]
    exact ⟨by simp, isPre_append_right sufTail t⟩
  simp [hne2, hsuffpre]

theorem findNextLink_sound {l u : Str} (h : findNextLink l = some u) :
    u ≠ [] ∧ u.all (fun c => !(c == '>')) = true ∧
      containsSub l ('<' :: u ++ relNextSuffix) = true := by
  induction l with
  | nil => simp [findNextLink] at h
  | cons c rest ih =>
    rw [findNextLink] at h
    cases htm : tryMatchHere (c :: rest) with
    | some u' =>
      rw [htm] at h
      have hu : u' = u := by simpa using h
      subst hu
      have hs := tryMatchHere_sound htm
      refine ⟨hs.1, hs.2.1, ?_⟩
      rw [containsSub_cons, hs.2.2, Bool.true_or]
    | none =>
      rw [htm] at h
      have hs := ih h
      refine ⟨hs.1, hs.2.1, ?_⟩
      rw [containsSub_cons, hs.2.2, Bool.or_true]

theorem findNextLink_isSome {l u : Str} (hne : u ≠ [])
    (hall : u.all (fun c => !(c == '>')) = true)
    (h : containsSub l ('<' :: u ++ relNextSuffix) = true) :
    (findNextLink l).isSome = true := by
  induction l with
  | nil => simp [containsSub, isPre] at h
  | cons c rest ih =>
    rw [containsSub_cons, Bool.or_eq_true] at h
    cases h with
    | inl hpre =>
      rw [findNextLink, tryMatchHere_exact hne hall hpre]
      rfl
    | inr hrec =>
      rw [findNextLink]
      cases htm : tryMatchHere (c :: rest) with
      | some u' => rfl
      | none => exact ih hrec

/-- C10: `next_page` is total and never raises: a missing `link` header,
a header value that is not valid UTF-8, or a value without the
`rel="next"` pattern all yield `none`; whenever it yields a URL, that URL
is exactly a nonempty `>`-free capture of a `<url>; rel="next"`
occurrence in the header, and whenever such an occurrence exists some URL
is returned. -/
theorem C10_next_page_total (l u : Str) :
    next_page none = none ∧
    next_page (some none) = none ∧
    (next_page (some (some l)) = some u →
      u ≠ [] ∧ u.all (fun c => !(c == '>')) = true ∧
        containsSub l ('<' :: u ++ relNextSuffix) = true) ∧
    ((∃ w, w ≠ ([] : Str) ∧ w.all (fun c => !(c == '>')) = true ∧
        containsSub l ('<' :: w ++ relNextSuffix) = true) →
      (next_page (some (some l))).isSome = true) ∧
    next_page (some (some "<https://x/p?page=2>; rel=\"next\"".toList)) =
      some "https://x/p?page=2".toList := by
  refine ⟨rfl, rfl, ?_, ?_, by decide⟩
  · intro h
    exact findNextLink_sound h
  · rintro ⟨w, hne, hall, hocc⟩
    exact findNextLink_isSome hne hall hocc

/-- C10 (witness): the totality theorem applied to a concrete header. -/
theorem C10_witness :
    next_page (some (some "<https://x/p?page=2>; rel=\"next\"".toList)) =
      some "https://x/p?page=2".toList :=
  (C10_next_page_total [] []).2.2.2.2

